import Mathlib

/-!
Verification of the meetings feed parser (`src/meetings/feedparser.js`):
a shallow embedding of the feed-item model, the dual-indexed `Feed`
collection, and the reconciliation engine (`Feed.update`), together
with proofs and refutations of the specified properties.

Modelling conventions (JavaScript semantics made explicit):

* A JS `Date` object is a `DateObj`: an allocation reference `ref`
  paired with its time value `time` (milliseconds).  A JS `Map` keyed by
  `Date` objects distinguishes distinct objects even when they carry the
  same instant, so map-key equality is structural equality of `DateObj`
  (each allocation gets a distinct `ref`).  A possibly-invalid date
  (`NaN` time value) is an `Option Int`, `none` standing for
  `Invalid Date`.
* A JS `Map` is an insertion-ordered association list: `set` updates the
  first matching key in place or appends, `delete` removes it, `keys()`
  is the key list in order.
* The bucket arrays of `itemsByStartTime` are `List (Option FeedItem)`:
  `delete arr[i]` (which leaves `arr.length` unchanged and creates a
  hole that the array iterator yields as `undefined`) is `List.set i
  none`.
* Thrown exceptions are `Except` errors; since the JS code mutates the
  feed in place before throwing, the error value carries the feed state
  at the throw point.  `JsError` names the error taxonomy: `notFound`
  and `inconsistent` are the two `removeChild` throws, `invalidDate` is
  the `invalid date` throw of `FeedItem.parse`, and `typeError` is the
  implicit `TypeError` of reading `textContent` (or calling a method) on
  `null`/`undefined`.
* DOM field extraction: an `item` element is a `RawEntry` whose five
  selector targets (`title`, `pubDate`, `description`,
  `calendarEvent:EventTimes`, `calendarEvent:EventDates`) are optional
  strings; a `none` field is a selector matching no element
  (`querySelector` / `getCalendarEventTag` returning `null`).
* The platform date parser (`new Date(string)` / `Date.parse`) is an
  explicit parameter `dparse : String → Option Int` (`none` = invalid);
  the code under verification only builds the strings handed to it and
  branches on validity of the result.
* Each JS generator (`sortedStartTimes`, `sortedItems`) is a pure
  function of the current feed state, recomputed at each traversal.
-/

/-- A JS `Date` object: allocation reference plus time value. -/
structure DateObj where
  ref : Nat
  time : Int
deriving DecidableEq, Repr

/-- The error taxonomy of `feedparser.js` (see module docstring). -/
inductive JsError where
  | notFound
  | inconsistent
  | invalidDate
  | typeError
deriving DecidableEq, Repr

deriving instance DecidableEq for Except

/-! ## JS `Map` as an insertion-ordered association list -/

/-- `Map.get`: value of the first (only) entry with key `k`. -/
def mapGet [DecidableEq α] (m : List (α × β)) (k : α) : Option β :=
  match m with
  | [] => none
  | (k', v) :: rest => if k' = k then some v else mapGet rest k

/-- `Map.has`. -/
def mapHas [DecidableEq α] (m : List (α × β)) (k : α) : Bool :=
  (mapGet m k).isSome

/-- `Map.set`: update the first entry with key `k` in place, else append. -/
def mapSet [DecidableEq α] (m : List (α × β)) (k : α) (v : β) : List (α × β) :=
  match m with
  | [] => [(k, v)]
  | (k', v') :: rest =>
      if k' = k then (k', v) :: rest else (k', v') :: mapSet rest k v

/-- `Map.delete`: remove the first entry with key `k`. -/
def mapDelete [DecidableEq α] (m : List (α × β)) (k : α) : List (α × β) :=
  match m with
  | [] => []
  | (k', v') :: rest =>
      if k' = k then rest else (k', v') :: mapDelete rest k

/-- `[...map.keys()]`: the keys in insertion order. -/
def mapKeys (m : List (α × β)) : List α :=
  m.map Prod.fst

/-! ## Item parsing (`parseCalendarEventDate`, `getElemText`, `FeedItem.parse`) -/

/-- JS `> ` on two `Date` values: `false` whenever either is invalid. -/
def jsDateGt : Option Int → Option Int → Bool
  | some a, some b => b < a
  | _, _ => false

/-- Left-to-right, non-overlapping split of a character list on a
separator, the behaviour of `String.prototype.split` with a string
separator.  `fuel` only drives the structural recursion; callers pass
at least the input length plus one, which the scan can never exhaust. -/
def splitChars (sep : List Char) : Nat → List Char → List Char → List (List Char)
  | 0, cs, acc => [acc.reverse ++ cs]
  | fuel + 1, cs, acc =>
      match cs with
      | [] => [acc.reverse]
      | c :: rest =>
          if sep.isPrefixOf (c :: rest) then
            acc.reverse :: splitChars sep fuel ((c :: rest).drop sep.length) []
          else
            splitChars sep fuel rest (c :: acc)

/-- `str.split(sep)` for a non-empty string separator. -/
def jsSplit (sep s : String) : List String :=
  (splitChars sep.data (s.data.length + 1) s.data []).map List.asString

/-- `str.trim()`: strip whitespace from both ends. -/
def jsTrim (s : String) : String :=
  (((s.data.dropWhile Char.isWhitespace).reverse.dropWhile
    Char.isWhitespace).reverse).asString

/-- `str.indexOf(" - ") != -1`. -/
def containsSep (s : String) : Bool :=
  (jsSplit " - " s).length != 1

/--
`parseCalendarEventDate(dateStr, timeStr)`: when `timeStr` is not
`undefined` the two are joined with a space, and the result is handed to
the platform date parser (`new Date(dtStr)`).
-/
def parseCalendarEventDate (dparse : String → Option Int)
    (dateStr : String) (timeStr : Option String) : Option Int :=
  match timeStr with
  | none => dparse dateStr
  | some t => dparse (dateStr ++ " " ++ t)

/--
One raw `<item>` element, reduced to the five selector targets
`FeedItem.parse` reads. A `none` field models a selector matching no
element.
-/
structure RawEntry where
  title : Option String
  pubDate : Option String
  description : Option String
  eventTimes : Option String
  eventDates : Option String
deriving DecidableEq, Repr

/-- A parsed feed item (class `FeedItem`). `pubDate` and `endTime` carry
only the time value (they are never used as map keys); `startTime` is a
full `DateObj` because it keys `itemsByStartTime`. -/
structure FeedItem where
  title : String
  pubDate : Option Int
  description : String
  startTime : DateObj
  endTime : Option Int
deriving DecidableEq, Repr

/-- `get timeStamp(){ return this.startTime.valueOf(); }` -/
def FeedItem.timeStamp (it : FeedItem) : Int :=
  it.startTime.time

/-- ``get id() { return `${this.title} || ${this.timeStamp}`; }`` -/
def FeedItem.id (it : FeedItem) : String :=
  it.title ++ " || " ++ toString it.timeStamp

/--
`FeedItem.parse(elem)`.  `fresh` is the allocation reference of the
`Date` object built for `startTime` (each call allocates a new object).
The five `getElemText` reads happen in source order and each missing
selector target throws the `TypeError` of reading `textContent` on
`null`.  `split(" - ")` always yields at least one part, and at least
two when the separator occurs.  Only `startTime` is checked against
`Invalid Date`.
-/
def FeedItem.parse (fresh : Nat) (e : RawEntry) (dparse : String → Option Int) :
    Except JsError FeedItem :=
  match e.title with
  | none => Except.error JsError.typeError
  | some title =>
  match e.pubDate with
  | none => Except.error JsError.typeError
  | some pubDateStr =>
  let pubDate := dparse pubDateStr
  match e.description with
  | none => Except.error JsError.typeError
  | some desc =>
  match e.eventTimes with
  | none => Except.error JsError.typeError
  | some ets =>
  let eventTimes := jsSplit " - " ets
  match e.eventDates with
  | none => Except.error JsError.typeError
  | some eds =>
  let eventDateStr := jsTrim eds
  let eventDates :=
    if containsSep eventDateStr then jsSplit " - " eventDateStr
    else [eventDateStr, eventDateStr]
  match parseCalendarEventDate dparse (eventDates.getD 0 "") (eventTimes.get? 0) with
  | none => Except.error JsError.invalidDate
  | some st =>
      Except.ok ⟨title, pubDate, desc, ⟨fresh, st⟩,
        parseCalendarEventDate dparse (eventDates.getD 1 "") (eventTimes.get? 1)⟩

/-! ## The `Feed` collection -/

/-- Class `Feed`: channel attributes plus the two item indices.
`buildDate` is the time value of the stored build `Date` (`none` =
invalid). -/
structure Feed where
  title : String
  link : String
  buildDate : Option Int
  description : String
  itemsByStartTime : List (DateObj × List (Option FeedItem))
  itemsById : List (String × FeedItem)
deriving DecidableEq, Repr

/-- `arr.indexOf(a)` for a member `a`: index of the first occurrence
(callers check membership first, as the JS code checks for `-1`). -/
def idxOf [DecidableEq α] (a : α) : List α → Nat
  | [] => 0
  | x :: xs => if x = a then 0 else idxOf a xs + 1

/-- The bucket stored under `dt`, or `[]` when the key is absent. -/
def Feed.bucketOf (f : Feed) (dt : DateObj) : List (Option FeedItem) :=
  (mapGet f.itemsByStartTime dt).getD []

/--
`Feed.addChild(feedItem)`: set the identity entry (overwriting any
existing one — the caller is responsible for dedup), create the bucket
for `feedItem.startTime` if absent, and push the item onto it.
-/
def Feed.addChild (f : Feed) (it : FeedItem) : Feed :=
  let byId := mapSet f.itemsById it.id it
  let dt := it.startTime
  let bst :=
    if mapHas f.itemsByStartTime dt then f.itemsByStartTime
    else mapSet f.itemsByStartTime dt []
  let sub := (mapGet bst dt).getD []
  { f with itemsById := byId, itemsByStartTime := mapSet bst dt (sub ++ [some it]) }

/--
`Feed.removeChild(itemId)`.  Missing identity throws (`notFound`);
a missing bucket makes `subArr.indexOf` throw a `TypeError` on
`undefined`; an item absent from its bucket throws (`inconsistent`).
`delete subArr[subIndex]` is `List.set subIndex none`: it leaves the
length unchanged, so the `subArr.length == 0` prune branch is modelled
exactly as written.  Errors carry the feed at the throw point.
-/
def Feed.removeChild (f : Feed) (itemId : String) : Except (JsError × Feed) Feed :=
  match mapGet f.itemsById itemId with
  | none => Except.error (JsError.notFound, f)
  | some item =>
      match mapGet f.itemsByStartTime item.startTime with
      | none => Except.error (JsError.typeError, f)
      | some sub =>
          if some item ∈ sub then
            let subIndex := idxOf (some item) sub
            let sub' := sub.set subIndex none
            let bst :=
              if sub'.length = 0 then mapDelete f.itemsByStartTime item.startTime
              else mapSet f.itemsByStartTime item.startTime sub'
            Except.ok { f with
              itemsByStartTime := bst,
              itemsById := mapDelete f.itemsById itemId }
          else
            Except.error (JsError.inconsistent, f)

/-- Stable insertion of a key into a list already sorted by `time`:
placed before the first element with a `≥` time, so earlier keys stay
first among ties. -/
def insertByTime (d : DateObj) : List DateObj → List DateObj
  | [] => [d]
  | x :: xs => if d.time ≤ x.time then d :: x :: xs else x :: insertByTime d xs

/-- Stable ascending sort by `time`, the observable behaviour of
`dts.sort(function(a, b){ return a.getTime() - b.getTime() })`. -/
def sortByTime (l : List DateObj) : List DateObj :=
  match l with
  | [] => []
  | x :: xs => insertByTime x (sortByTime xs)

/-- `* sortedStartTimes()`: the keys of `itemsByStartTime`, sorted
ascending by time value, recomputed from current state. -/
def Feed.sortedStartTimes (f : Feed) : List DateObj :=
  sortByTime (mapKeys f.itemsByStartTime)

/-- `* sortedItems()`: concatenation of the buckets in sorted key
order. Array holes left by `removeChild` are yielded as `none`
(`yield*` over a sparse array yields `undefined` at holes). -/
def Feed.sortedItems (f : Feed) : List (Option FeedItem) :=
  (f.sortedStartTimes).flatMap fun dt => f.bucketOf dt

/-- `Feed.nextItem()`: first element of `sortedItems`, or absent. -/
def Feed.nextItem (f : Feed) : Option (Option FeedItem) :=
  f.sortedItems.head?

/--
`Feed.parseChild(itemEl)`: parse, and if the identity already exists
return `(false, existing)` without mutating; otherwise insert and
return `(true, child)`.  A parse failure propagates with the feed
untouched.
-/
def Feed.parseChild (f : Feed) (fresh : Nat) (e : RawEntry)
    (dparse : String → Option Int) :
    Except (JsError × Feed) (Bool × FeedItem × Feed) :=
  match FeedItem.parse fresh e dparse with
  | Except.error err => Except.error (err, f)
  | Except.ok child =>
      match mapGet f.itemsById child.id with
      | some existing => Except.ok (false, existing, f)
      | none => Except.ok (true, child, f.addChild child)

/-- The `<channel>` element as `Feed.update` reads it: the
`lastBuildDate` selector target and the list of `<item>` elements. -/
structure RawChannel where
  lastBuildDate : Option String
  items : List RawEntry

/-- The per-entry loop of `Feed.update`: `parseChild` each element in
order, or-ing `created` into `changed`; successive parses allocate
successive `Date` references. An exception aborts the loop with the
feed as already mutated. -/
def updateLoop (f : Feed) (entries : List RawEntry) (fresh : Nat)
    (dparse : String → Option Int) (changed : Bool) :
    Except (JsError × Feed) (Bool × Feed) :=
  match entries with
  | [] => Except.ok (changed, f)
  | e :: rest =>
      match f.parseChild fresh e dparse with
      | Except.error ef => Except.error ef
      | Except.ok (created, _, f') =>
          updateLoop f' rest (fresh + 1) dparse (changed || created)

/-- `itemsToRemove.forEach((itemId) => { this.removeChild(itemId); })`:
an exception inside the callback aborts the iteration. -/
def removeAll (f : Feed) (ids : List String) : Except (JsError × Feed) Feed :=
  match ids with
  | [] => Except.ok f
  | id :: rest =>
      match f.removeChild id with
      | Except.error ef => Except.error ef
      | Except.ok f' => removeAll f' rest

/--
`Feed.update(doc)`: extract the remote `lastBuildDate` (a missing
element throws `typeError`), apply the freshness gate (`buildDate >
this.buildDate` on possibly-invalid dates), snapshot the identity keys
as `itemsToRemove`, run the per-entry loop, mark `changed` when the
snapshot is non-empty, then remove every snapshotted identity.  `fresh`
is the first `Date` allocation reference used by this pass.
-/
def Feed.update (f : Feed) (ch : RawChannel) (dparse : String → Option Int)
    (fresh : Nat) : Except (JsError × Feed) (Bool × List String × Feed) :=
  match ch.lastBuildDate with
  | none => Except.error (JsError.typeError, f)
  | some s =>
      let buildDate := dparse s
      if jsDateGt buildDate f.buildDate then
        Except.ok (false, [], f)
      else
        let itemsToRemove := mapKeys f.itemsById
        match updateLoop f ch.items fresh dparse false with
        | Except.error ef => Except.error ef
        | Except.ok (changed, f1) =>
            let changed := changed || !itemsToRemove.isEmpty
            match removeAll f1 itemsToRemove with
            | Except.error ef => Except.error ef
            | Except.ok f2 => Except.ok (changed, itemsToRemove, f2)

/-! ## Reachable feed states

`insert` (= `addChild`) steps carry the specified dedup precondition —
callers (`parseChild`) only insert identities not already present —
and `remove` steps are successful `removeChild` calls. -/

/-- Feed states reachable from an empty feed by `addChild` (with fresh
identity) and successful `removeChild`. -/
inductive Reachable : Feed → Prop where
  | empty (t l : String) (b : Option Int) (d : String) :
      Reachable ⟨t, l, b, d, [], []⟩
  | add {f : Feed} (it : FeedItem) : Reachable f →
      mapGet f.itemsById it.id = none → Reachable (f.addChild it)
  | remove {f f' : Feed} (id : String) : Reachable f →
      f.removeChild id = Except.ok f' → Reachable f'

/-! ## Concrete test fixture

A small date-parser table and a feed holding items A (start 09:00,
encoded 900) and B (start 10:00, encoded 1000), used to evaluate the
reconciliation scenarios on concrete inputs. -/

/-- Concrete stand-in for the platform date parser: a finite lookup
table; every other string is an unparsable date. -/
def demoParse : String → Option Int := fun s =>
  if s = "bd-old" then some 50
  else if s = "bd-new" then some 150
  else if s = "DB TB" then some 1000
  else if s = "DB" then some 1000
  else if s = "DC TC" then some 1100
  else if s = "DC" then some 1100
  else none

def itemA : FeedItem := ⟨"A", none, "descA", ⟨0, 900⟩, some 930⟩

def itemB : FeedItem := ⟨"B", none, "descB", ⟨1, 1000⟩, some 1030⟩

/-- Feed with items A and B and local build time 100. -/
def feedAB : Feed :=
  ((Feed.mk "t" "l" (some 100) "d" [] []).addChild itemA).addChild itemB

/-- Raw entry carrying the identity of item B (`"B || 1000"`). -/
def entryB : RawEntry :=
  ⟨some "B", some "pb", some "descB2", some "TB", some "DB"⟩

/-- Raw entry for the new item C (start 11:00, encoded 1100). -/
def entryC : RawEntry :=
  ⟨some "C", some "pb", some "descC", some "TC", some "DC"⟩

/-- Raw entry whose fields are all present but whose start date text
(`"DBAD TB"`) is unparsable. -/
def entryBad : RawEntry :=
  ⟨some "X", some "pb", some "descX", some "TB", some "DBAD"⟩

/-- The C1 scenario channel: only the identity of B plus new entry C,
with a build time (50) not newer than that of the feed (100). -/
def chanC1 : RawChannel := ⟨some "bd-old", [entryB, entryC]⟩

/-- The item that entry C of the C1 scenario parses to (allocation 6). -/
def itemC : FeedItem := ⟨"C", none, "descC", ⟨6, 1100⟩, some 1100⟩

/-- The feed state the C1 scenario ends in: item C present, and the
emptied buckets of A and B still keyed with a single hole each. -/
def feedC1After : Feed :=
  { feedAB with
    itemsByStartTime :=
      [(⟨0, 900⟩, [none]), (⟨1, 1000⟩, [none]), (⟨6, 1100⟩, [some itemC])],
    itemsById := [("C || 1100", itemC)] }

/-- Channel whose build time (150) is strictly newer than the ambient
feed build time (100): the freshness gate skips it. -/
def chanNewer : RawChannel := ⟨some "bd-new", [entryB, entryC]⟩

/-- Channel with a good entry C followed by the unparsable `entryBad`:
used to show a failed pass is not rolled back. -/
def chanBadSecond : RawChannel := ⟨some "bd-old", [entryC, entryBad]⟩

/-- The item entry C parses to in the `chanBadSecond` pass
(allocation 5). -/
def itemCfirst : FeedItem := ⟨"C", none, "descC", ⟨5, 1100⟩, some 1100⟩

/-- The state the `chanBadSecond` pass throws in: C inserted, A and B
untouched. -/
def feedBadAfter : Feed :=
  { feedAB with
    itemsByStartTime := feedAB.itemsByStartTime ++ [(⟨5, 1100⟩, [some itemCfirst])],
    itemsById := feedAB.itemsById ++ [("C || 1100", itemCfirst)] }

/-- An item sharing the start instant of `itemA` (time 900) but carried
by a distinct `Date` object (allocation 1). -/
def itemA2 : FeedItem := ⟨"A2", none, "descA2", ⟨1, 900⟩, some 930⟩

/-- Feed holding `itemA` and `itemA2`: equal start instants, distinct
`Date` objects. -/
def feedDup : Feed :=
  ((Feed.mk "t" "l" none "d" [] []).addChild itemA).addChild itemA2

/-- Entry whose date field is a range with a parsable first half and an
unparsable second half. -/
def entrySplit : RawEntry :=
  ⟨some "E", some "p", some "d", some "10:00 AM - 11:00 AM", some "D1 - DBAD"⟩

/-- Date-parser table for `entrySplit`: only the combined start text
resolves. -/
def splitParse : String → Option Int := fun s =>
  if s = "D1 10:00 AM" then some 500 else none

/-- Single-item feed used to exercise `removeChild` on the last item of
a bucket. -/
def feedA : Feed := (Feed.mk "t" "l" none "d" [] []).addChild itemA

/-- The state `removeChild` leaves `feedA` in: the identity index is
empty but the 900 bucket key survives, holding one hole. -/
def feedARemoved : Feed :=
  { feedA with itemsByStartTime := [(⟨0, 900⟩, [none])], itemsById := [] }

/-- The item `entrySplit` parses to: a valid start instant and an
`Invalid Date` end. -/
def splitItem : FeedItem := ⟨"E", none, "d", ⟨0, 500⟩, none⟩

/-- Entry whose `calendarEvent:EventTimes` selector matches no element
(all other fields present). -/
def entryNoTimes : RawEntry :=
  ⟨some "T", some "p", some "d", none, some "DB"⟩

/-! ## Invariant predicates and statement helpers -/

/-- Number of occurrences of `a` in `l` (`occs` avoids the `BEq`
indirection of `List.count`). -/
def occs [DecidableEq α] (a : α) : List α → Nat
  | [] => 0
  | x :: xs => (if x = a then 1 else 0) + occs a xs

/-- The two indices are in lock-step: every identity entry holds the
item under its own identity and appears exactly once in the bucket for
its start time, and every item found in a bucket is indexed under its
identity with the start time of its bucket. -/
def Feed.Consistent (f : Feed) : Prop :=
  (∀ p ∈ f.itemsById, p.1 = p.2.id ∧ occs (some p.2) (f.bucketOf p.2.startTime) = 1) ∧
  (∀ q ∈ f.itemsByStartTime, ∀ it : FeedItem, some it ∈ q.2 →
      it.startTime = q.1 ∧ mapGet f.itemsById it.id = some it)

/-- Full inductive invariant: both key lists are duplicate-free and the
indices are consistent. -/
def Feed.Inv (f : Feed) : Prop :=
  (mapKeys f.itemsById).Nodup ∧ (mapKeys f.itemsByStartTime).Nodup ∧ f.Consistent

/-- The start-time value `FeedItem.parse` computes for an entry:
`none` when the `calendarEvent` fields are missing (parsing cannot
reach the date logic), otherwise `some` of the possibly-invalid parsed
instant, built from the first date half and first time half exactly as
in `FeedItem.parse`. -/
def computedStart (e : RawEntry) (dparse : String → Option Int) : Option (Option Int) :=
  match e.eventTimes, e.eventDates with
  | some ts, some ds =>
      let eventTimes := jsSplit " - " ts
      let eventDateStr := jsTrim ds
      let eventDates :=
        if containsSep eventDateStr then jsSplit " - " eventDateStr
        else [eventDateStr, eventDateStr]
      some (parseCalendarEventDate dparse (eventDates.getD 0 "") (eventTimes.get? 0))
  | _, _ => none

/-! ## Toolkit lemmas about the map and list operations -/

theorem mapGet_mapSet [DecidableEq α] (m : List (α × β)) (k k' : α) (v : β) :
    mapGet (mapSet m k v) k' = if k = k' then some v else mapGet m k' := by
  induction m with
  | nil => simp [mapSet, mapGet]
  | cons p rest ih =>
      obtain ⟨k₀, v₀⟩ := p
      by_cases h0 : k₀ = k
      · subst h0
        by_cases h1 : k₀ = k'
        · subst h1
          simp [mapSet, mapGet]
        · simp [mapSet, mapGet, h1]
      · by_cases h1 : k₀ = k'
        · subst h1
          have h2 : ¬ k = k₀ := fun he => h0 he.symm
          simp [mapSet, mapGet, h0, h2]
        · simp [mapSet, mapGet, h0, h1, ih]

theorem mapGet_eq_none_iff [DecidableEq α] (m : List (α × β)) (k : α) :
    mapGet m k = none ↔ k ∉ mapKeys m := by
  induction m with
  | nil => simp [mapGet, mapKeys]
  | cons p rest ih =>
      obtain ⟨k₀, v₀⟩ := p
      simp only [mapGet, mapKeys, List.map_cons, List.mem_cons]
      split_ifs with h0 <;> simp_all [mapKeys, eq_comm]

theorem mapGet_mem [DecidableEq α] {m : List (α × β)} {k : α} {v : β}
    (h : mapGet m k = some v) : (k, v) ∈ m := by
  induction m with
  | nil => simp [mapGet] at h
  | cons p rest ih =>
      obtain ⟨k₀, v₀⟩ := p
      simp only [mapGet] at h
      split_ifs at h with h0
      · cases h; cases h0; simp
      · exact List.mem_cons_of_mem _ (ih h)

theorem mapGet_of_mem_nodup [DecidableEq α] {m : List (α × β)}
    (hnd : (mapKeys m).Nodup) {q : α × β} (hq : q ∈ m) :
    mapGet m q.1 = some q.2 := by
  induction m with
  | nil => simp at hq
  | cons p rest ih =>
      obtain ⟨k₀, v₀⟩ := p
      simp only [mapKeys, List.map_cons, List.nodup_cons] at hnd
      rcases List.mem_cons.mp hq with h | h
      · subst h; simp [mapGet]
      · have hk : q.1 ≠ k₀ := by
          intro he
          exact hnd.1 (he ▸ List.mem_map_of_mem Prod.fst h)
        simp only [mapGet]
        rw [if_neg fun he => hk he.symm]
        exact ih hnd.2 h

theorem mapSet_eq_append [DecidableEq α] {m : List (α × β)} {k : α}
    (h : mapGet m k = none) (v : β) : mapSet m k v = m ++ [(k, v)] := by
  induction m with
  | nil => simp [mapSet]
  | cons p rest ih =>
      obtain ⟨k₀, v₀⟩ := p
      rw [mapGet] at h
      by_cases h0 : k₀ = k
      · rw [if_pos h0] at h
        exact absurd h (by simp)
      · rw [if_neg h0] at h
        rw [mapSet, if_neg h0, ih h]
        simp

theorem mapKeys_mapSet_of_mem [DecidableEq α] {m : List (α × β)} {k : α}
    (h : k ∈ mapKeys m) (v : β) : mapKeys (mapSet m k v) = mapKeys m := by
  induction m with
  | nil => simp [mapKeys] at h
  | cons p rest ih =>
      obtain ⟨k₀, v₀⟩ := p
      by_cases h0 : k₀ = k
      · simp [mapSet, h0, mapKeys]
      · have hk : k ∈ mapKeys rest := by
          simp only [mapKeys, List.map_cons, List.mem_cons] at h
          rcases h with h | h
          · exact absurd h.symm h0
          · exact h
        rw [mapSet, if_neg h0]
        simp only [mapKeys, List.map_cons]
        exact congrArg (List.cons k₀) (ih hk)

theorem mem_mapSet_iff [DecidableEq α] {m : List (α × β)}
    (hnd : (mapKeys m).Nodup) (k : α) (v : β) (q : α × β) :
    q ∈ mapSet m k v ↔ (q ∈ m ∧ q.1 ≠ k) ∨ q = (k, v) := by
  induction m with
  | nil => simp [mapSet]
  | cons p rest ih =>
      obtain ⟨k₀, v₀⟩ := p
      have hnd' := List.nodup_cons.mp hnd
      have hnd1 : k₀ ∉ mapKeys rest := hnd'.1
      have hnd2 : (mapKeys rest).Nodup := hnd'.2
      by_cases h0 : k₀ = k
      · subst h0
        rw [mapSet, if_pos rfl]
        constructor
        · intro hq
          rcases List.mem_cons.mp hq with hq | hq
          · exact Or.inr hq
          · refine Or.inl ⟨List.mem_cons_of_mem _ hq, ?_⟩
            intro he
            exact hnd1 (he ▸ List.mem_map_of_mem Prod.fst hq)
        · intro hq
          rcases hq with ⟨hq, hne⟩ | hq
          · rcases List.mem_cons.mp hq with hq | hq
            · exact absurd (by rw [hq]) hne
            · exact List.mem_cons_of_mem _ hq
          · rw [hq]
            exact List.mem_cons_self _ _
      · rw [mapSet, if_neg h0]
        constructor
        · intro hq
          rcases List.mem_cons.mp hq with hq | hq
          · subst hq
            exact Or.inl ⟨List.mem_cons_self _ _, h0⟩
          · rcases (ih hnd2).mp hq with ⟨hq, hne⟩ | hq
            · exact Or.inl ⟨List.mem_cons_of_mem _ hq, hne⟩
            · exact Or.inr hq
        · intro hq
          rcases hq with ⟨hq, hne⟩ | hq
          · rcases List.mem_cons.mp hq with hq | hq
            · rw [hq]
              exact List.mem_cons_self _ _
            · exact List.mem_cons_of_mem _ ((ih hnd2).mpr (Or.inl ⟨hq, hne⟩))
          · exact List.mem_cons_of_mem _ ((ih hnd2).mpr (Or.inr hq))

theorem mapKeys_mapDelete_sublist [DecidableEq α] (m : List (α × β)) (k : α) :
    (mapKeys (mapDelete m k)).Sublist (mapKeys m) := by
  induction m with
  | nil => simp [mapDelete, mapKeys]
  | cons p rest ih =>
      obtain ⟨k₀, v₀⟩ := p
      simp only [mapDelete]
      split_ifs with h0
      · simp [mapKeys, List.sublist_cons_self]
      · simpa [mapKeys] using ih.cons₂ k₀

theorem mem_mapDelete_iff [DecidableEq α] {m : List (α × β)}
    (hnd : (mapKeys m).Nodup) (k : α) (q : α × β) :
    q ∈ mapDelete m k ↔ q ∈ m ∧ q.1 ≠ k := by
  induction m with
  | nil => simp [mapDelete]
  | cons p rest ih =>
      obtain ⟨k₀, v₀⟩ := p
      have hnd' := List.nodup_cons.mp hnd
      have hnd1 : k₀ ∉ mapKeys rest := hnd'.1
      have hnd2 : (mapKeys rest).Nodup := hnd'.2
      rw [mapDelete]
      by_cases h0 : k₀ = k
      · subst h0
        rw [if_pos rfl]
        constructor
        · intro hq
          refine ⟨List.mem_cons_of_mem _ hq, ?_⟩
          intro he
          exact hnd1 (he ▸ List.mem_map_of_mem Prod.fst hq)
        · rintro ⟨hq, hne⟩
          rcases List.mem_cons.mp hq with hq | hq
          · exact absurd (by rw [hq]) hne
          · exact hq
      · rw [if_neg h0]
        constructor
        · intro hq
          rcases List.mem_cons.mp hq with hq | hq
          · subst hq
            exact ⟨List.mem_cons_self _ _, h0⟩
          · rcases (ih hnd2).mp hq with ⟨hq, hne⟩
            exact ⟨List.mem_cons_of_mem _ hq, hne⟩
        · rintro ⟨hq, hne⟩
          rcases List.mem_cons.mp hq with hq | hq
          · rw [hq]
            exact List.mem_cons_self _ _
          · exact List.mem_cons_of_mem _ ((ih hnd2).mpr ⟨hq, hne⟩)

theorem mapGet_mapDelete_ne [DecidableEq α] (m : List (α × β)) {k k' : α}
    (h : k ≠ k') : mapGet (mapDelete m k) k' = mapGet m k' := by
  induction m with
  | nil => simp [mapDelete]
  | cons p rest ih =>
      obtain ⟨k₀, v₀⟩ := p
      rw [mapDelete]
      by_cases h0 : k₀ = k
      · rw [if_pos h0]
        have h2 : ¬ k₀ = k' := by
          rw [h0]
          exact h
        simp [mapGet, h2]
      · rw [if_neg h0]
        simp only [mapGet, ih]

theorem occs_append [DecidableEq α] (a : α) (l₁ l₂ : List α) :
    occs a (l₁ ++ l₂) = occs a l₁ + occs a l₂ := by
  induction l₁ with
  | nil => simp [occs]
  | cons x xs ih => simp [occs, ih]; omega

theorem occs_eq_zero_iff [DecidableEq α] (a : α) (l : List α) :
    occs a l = 0 ↔ a ∉ l := by
  induction l with
  | nil => simp [occs]
  | cons x xs ih =>
      simp only [occs, List.mem_cons]
      by_cases h0 : x = a
      · subst h0
        simp
      · have h1 : ¬ a = x := fun he => h0 he.symm
        simp [h0, h1, ih]

theorem occs_cons_self [DecidableEq α] (a : α) (l : List α) :
    occs a (a :: l) = 1 + occs a l := by
  simp [occs]

theorem idxOf_decomp [DecidableEq α] {a : α} {l : List α} (h : a ∈ l) :
    ∃ l₁ l₂, l = l₁ ++ a :: l₂ ∧ a ∉ l₁ ∧ idxOf a l = l₁.length := by
  induction l with
  | nil => simp at h
  | cons x xs ih =>
      by_cases h0 : x = a
      · exact ⟨[], xs, by simp [h0], by simp, by simp [idxOf, h0]⟩
      · have hx : a ∈ xs := by
          rcases List.mem_cons.mp h with rfl | hx
          · exact absurd rfl h0
          · exact hx
        obtain ⟨l₁, l₂, hdec, hnot, hidx⟩ := ih hx
        refine ⟨x :: l₁, l₂, by simp [hdec], ?_, by simp [idxOf, h0, hidx]⟩
        simp only [List.mem_cons, not_or]
        exact ⟨fun he => h0 he.symm, hnot⟩

theorem set_append_length (l₁ : List α) (x b : α) (l₂ : List α) :
    (l₁ ++ x :: l₂).set l₁.length b = l₁ ++ b :: l₂ := by
  induction l₁ with
  | nil => simp
  | cons y ys ih => simp [List.set, ih]

/-! ## Characterizing the effect of addChild and removeChild -/

theorem mapHas_iff [DecidableEq α] (m : List (α × β)) (k : α) :
    mapHas m k = true ↔ k ∈ mapKeys m := by
  rw [mapHas, Option.isSome_iff_ne_none]
  constructor
  · intro h
    by_contra hk
    exact h ((mapGet_eq_none_iff m k).mpr hk)
  · intro h hn
    exact (mapGet_eq_none_iff m k).mp hn h

theorem addChild_itemsById (f : Feed) (it : FeedItem) :
    (f.addChild it).itemsById = mapSet f.itemsById it.id it := rfl

theorem mapGet_addChild_bst (f : Feed) (it : FeedItem) (dt : DateObj) :
    mapGet (f.addChild it).itemsByStartTime dt =
      if it.startTime = dt then some (f.bucketOf it.startTime ++ [some it])
      else mapGet f.itemsByStartTime dt := by
  unfold Feed.addChild Feed.bucketOf
  cases hg : mapGet f.itemsByStartTime it.startTime with
  | some sub =>
      have hhas : mapHas f.itemsByStartTime it.startTime = true := by
        simp [mapHas, hg]
      simp only [hhas, if_true, hg, mapGet_mapSet, Option.getD_some]
  | none =>
      have hhas : mapHas f.itemsByStartTime it.startTime = false := by
        simp [mapHas, hg]
      simp only [hhas, Bool.false_eq_true, if_false, mapGet_mapSet, if_pos rfl,
        Option.getD_some, hg, Option.getD_none]
      by_cases hdt : it.startTime = dt
      · simp [hdt]
      · simp [hdt]

theorem mapKeys_addChild_bst (f : Feed) (it : FeedItem) :
    mapKeys (f.addChild it).itemsByStartTime =
      if mapHas f.itemsByStartTime it.startTime then mapKeys f.itemsByStartTime
      else mapKeys f.itemsByStartTime ++ [it.startTime] := by
  unfold Feed.addChild
  by_cases hhas : mapHas f.itemsByStartTime it.startTime
  · have hmem : it.startTime ∈ mapKeys f.itemsByStartTime :=
      (mapHas_iff _ _).mp hhas
    simp only [hhas, if_true, mapKeys_mapSet_of_mem hmem]
  · have hg : mapGet f.itemsByStartTime it.startTime = none := by
      rcases hn : mapGet f.itemsByStartTime it.startTime with _ | sub
      · rfl
      · exfalso
        rw [mapHas, hn] at hhas
        simp at hhas
    have happ : mapSet f.itemsByStartTime it.startTime ([] : List (Option FeedItem)) =
        f.itemsByStartTime ++ [(it.startTime, [])] := mapSet_eq_append hg []
    have hmem2 : it.startTime ∈
        mapKeys (mapSet f.itemsByStartTime it.startTime ([] : List (Option FeedItem))) := by
      rw [happ]
      simp [mapKeys]
    simp only [hhas, Bool.false_eq_true, if_false]
    rw [mapKeys_mapSet_of_mem hmem2, happ]
    simp [mapKeys]

theorem mem_addChild_bst {f : Feed} (hnd : (mapKeys f.itemsByStartTime).Nodup)
    (it : FeedItem) {q : DateObj × List (Option FeedItem)}
    (hq : q ∈ (f.addChild it).itemsByStartTime) :
    (q ∈ f.itemsByStartTime ∧ q.1 ≠ it.startTime) ∨
      q = (it.startTime, f.bucketOf it.startTime ++ [some it]) := by
  unfold Feed.addChild at hq
  by_cases hhas : mapHas f.itemsByStartTime it.startTime
  · rcases hg : mapGet f.itemsByStartTime it.startTime with _ | sub
    · exfalso
      rw [mapHas, hg] at hhas
      simp at hhas
    · simp only [hhas, if_true, hg, Option.getD_some] at hq
      have hbk : f.bucketOf it.startTime = sub := by
        simp [Feed.bucketOf, hg]
      rw [hbk]
      exact (mem_mapSet_iff hnd _ _ q).mp hq
  · have hg : mapGet f.itemsByStartTime it.startTime = none := by
      rcases hn : mapGet f.itemsByStartTime it.startTime with _ | sub
      · rfl
      · exfalso
        rw [mapHas, hn] at hhas
        simp at hhas
    have hbk : f.bucketOf it.startTime = [] := by
      simp [Feed.bucketOf, hg]
    have happ : mapSet f.itemsByStartTime it.startTime ([] : List (Option FeedItem)) =
        f.itemsByStartTime ++ [(it.startTime, [])] := mapSet_eq_append hg []
    have hid : it.startTime ∉ mapKeys f.itemsByStartTime := by
      intro hc
      exact hhas ((mapHas_iff _ _).mpr hc)
    have hnd0 : (mapKeys (mapSet f.itemsByStartTime it.startTime
        ([] : List (Option FeedItem)))).Nodup := by
      rw [happ]
      simp only [mapKeys, List.map_append, List.map_cons, List.map_nil]
      rw [List.nodup_append]
      refine ⟨hnd, List.nodup_singleton _, ?_⟩
      intro a ha hb
      rw [List.mem_singleton] at hb
      subst hb
      exact hid ha
    have hin : mapGet (mapSet f.itemsByStartTime it.startTime
        ([] : List (Option FeedItem))) it.startTime = some [] := by
      rw [mapGet_mapSet]
      simp
    simp only [hhas, Bool.false_eq_true, if_false, hin, Option.getD_some,
      List.nil_append] at hq
    rcases (mem_mapSet_iff hnd0 _ _ q).mp hq with ⟨hq1, hq2⟩ | hq3
    · rw [happ] at hq1
      rcases List.mem_append.mp hq1 with hq1 | hq1
      · exact Or.inl ⟨hq1, hq2⟩
      · rw [List.mem_singleton] at hq1
        exfalso
        apply hq2
        rw [hq1]
    · right
      rw [hbk, List.nil_append]
      exact hq3

theorem addChild_inv {f : Feed} {it : FeedItem} (hinv : f.Inv)
    (hfresh : mapGet f.itemsById it.id = none) : (f.addChild it).Inv := by
  obtain ⟨hnd1, hnd2, hcons1, hcons2⟩ := hinv
  have hid : it.id ∉ mapKeys f.itemsById := (mapGet_eq_none_iff _ _).mp hfresh
  have hbyId : (f.addChild it).itemsById = f.itemsById ++ [(it.id, it)] := by
    rw [addChild_itemsById, mapSet_eq_append hfresh]
  have hnotin : some it ∉ f.bucketOf it.startTime := by
    intro hmem
    rcases hg : mapGet f.itemsByStartTime it.startTime with _ | sub
    · rw [Feed.bucketOf, hg] at hmem
      simp at hmem
    · rw [Feed.bucketOf, hg, Option.getD_some] at hmem
      have hq := hcons2 (it.startTime, sub) (mapGet_mem hg) it hmem
      rw [hfresh] at hq
      exact Option.noConfusion hq.2
  refine ⟨?_, ?_, ?_, ?_⟩
  · rw [hbyId]
    simp only [mapKeys, List.map_append, List.map_cons, List.map_nil]
    rw [List.nodup_append]
    refine ⟨hnd1, List.nodup_singleton _, ?_⟩
    intro a ha hb
    rw [List.mem_singleton] at hb
    subst hb
    exact hid ha
  · rw [mapKeys_addChild_bst]
    by_cases hhas : mapHas f.itemsByStartTime it.startTime
    · simp only [hhas, if_true]
      exact hnd2
    · simp only [hhas, Bool.false_eq_true, if_false]
      rw [List.nodup_append]
      refine ⟨hnd2, List.nodup_singleton _, ?_⟩
      intro a ha hb
      rw [List.mem_singleton] at hb
      subst hb
      exact (fun hc => hhas ((mapHas_iff _ _).mpr hc)) ha
  · intro p hp
    rw [hbyId] at hp
    rcases List.mem_append.mp hp with hp | hp
    · obtain ⟨hpid, hcount⟩ := hcons1 p hp
      have hp1mem : p.1 ∈ mapKeys f.itemsById := List.mem_map_of_mem Prod.fst hp
      have hpne : p.2 ≠ it := by
        intro he
        apply hid
        have hpe : p.1 = it.id := by rw [hpid, he]
        rw [← hpe]
        exact hp1mem
      refine ⟨hpid, ?_⟩
      rw [Feed.bucketOf, mapGet_addChild_bst]
      by_cases hdt : it.startTime = p.2.startTime
      · rw [if_pos hdt, Option.getD_some, occs_append]
        have hne2 : ¬ (some it = some p.2) := by
          intro he
          exact hpne (Option.some.inj he).symm
        have h0 : occs (some p.2) [some it] = 0 := by
          simp [occs, hne2]
        rw [h0, hdt, Nat.add_zero]
        exact hcount
      · rw [if_neg hdt]
        exact hcount
    · rw [List.mem_singleton] at hp
      subst hp
      refine ⟨rfl, ?_⟩
      rw [Feed.bucketOf, mapGet_addChild_bst, if_pos rfl, Option.getD_some, occs_append]
      have h0 : occs (some it) (f.bucketOf it.startTime) = 0 :=
        (occs_eq_zero_iff _ _).mpr hnotin
      rw [h0]
      simp [occs]
  · intro q hq it' hit'
    rcases mem_addChild_bst hnd2 it hq with ⟨hq1, hq2⟩ | hq3
    · obtain ⟨hst, hgot⟩ := hcons2 q hq1 it' hit'
      refine ⟨hst, ?_⟩
      rw [addChild_itemsById, mapGet_mapSet]
      by_cases hide : it.id = it'.id
      · exfalso
        rw [← hide, hfresh] at hgot
        exact Option.noConfusion hgot
      · rw [if_neg hide]
        exact hgot
    · subst hq3
      rcases List.mem_append.mp hit' with hit1 | hit1
      · rcases hg : mapGet f.itemsByStartTime it.startTime with _ | sub
        · exfalso
          rw [Feed.bucketOf, hg] at hit1
          simp at hit1
        · have hsubeq : f.bucketOf it.startTime = sub := by
            simp [Feed.bucketOf, hg]
          rw [hsubeq] at hit1
          obtain ⟨hst, hgot⟩ := hcons2 (it.startTime, sub) (mapGet_mem hg) it' hit1
          refine ⟨hst, ?_⟩
          rw [addChild_itemsById, mapGet_mapSet]
          by_cases hide : it.id = it'.id
          · exfalso
            rw [← hide, hfresh] at hgot
            exact Option.noConfusion hgot
          · rw [if_neg hide]
            exact hgot
      · rw [List.mem_singleton] at hit1
        have hit2 : it' = it := Option.some.inj hit1
        subst hit2
        refine ⟨rfl, ?_⟩
        rw [addChild_itemsById, mapGet_mapSet, if_pos rfl]

theorem removeChild_ok_cases {f f' : Feed} {id : String}
    (h : f.removeChild id = Except.ok f') :
    ∃ item sub, mapGet f.itemsById id = some item ∧
      mapGet f.itemsByStartTime item.startTime = some sub ∧
      some item ∈ sub ∧
      f' = { f with
        itemsByStartTime :=
          if (sub.set (idxOf (some item) sub) none).length = 0 then
            mapDelete f.itemsByStartTime item.startTime
          else mapSet f.itemsByStartTime item.startTime
            (sub.set (idxOf (some item) sub) none),
        itemsById := mapDelete f.itemsById id } := by
  unfold Feed.removeChild at h
  split at h
  · exact Except.noConfusion h
  next item h1 =>
    split at h
    · exact Except.noConfusion h
    next sub h2 =>
      split at h
      next h3 =>
        exact ⟨item, sub, h1, h2, h3, (Except.ok.inj h).symm⟩
      next h3 =>
        exact Except.noConfusion h

theorem removeChild_inv {f f' : Feed} {id : String} (hinv : f.Inv)
    (h : f.removeChild id = Except.ok f') : f'.Inv := by
  obtain ⟨hnd1, hnd2, hcons1, hcons2⟩ := hinv
  obtain ⟨item, sub, h1, h2, h3, hf'⟩ := removeChild_ok_cases h
  have hpmem : (id, item) ∈ f.itemsById := mapGet_mem h1
  obtain ⟨hideq, hcount⟩ := hcons1 (id, item) hpmem
  dsimp only at hideq hcount
  have hbsub : f.bucketOf item.startTime = sub := by
    simp [Feed.bucketOf, h2]
  rw [hbsub] at hcount
  obtain ⟨l₁, l₂, hdec, hnotl1, hidx⟩ := idxOf_decomp h3
  have hoccl1 : occs (some item) l₁ = 0 := (occs_eq_zero_iff _ _).mpr hnotl1
  rw [hdec, occs_append, occs_cons_self] at hcount
  have hocc2 : occs (some item) l₂ = 0 := by
    rw [hoccl1] at hcount
    omega
  have hnotl2 : some item ∉ l₂ := (occs_eq_zero_iff _ _).mp hocc2
  have hsub' : sub.set (idxOf (some item) sub) none = l₁ ++ none :: l₂ := by
    rw [hidx, hdec, set_append_length]
  have hf'2 : f' = { f with
      itemsByStartTime := mapSet f.itemsByStartTime item.startTime (l₁ ++ none :: l₂),
      itemsById := mapDelete f.itemsById id } := by
    rw [hf', hsub']
    have hlen : ¬ ((l₁ ++ none :: l₂ : List (Option FeedItem)).length = 0) := by
      simp
    rw [if_neg hlen]
  subst hf'2
  have hstmem : item.startTime ∈ mapKeys f.itemsByStartTime := by
    by_contra hc
    have hn := (mapGet_eq_none_iff _ _).mpr hc
    rw [hn] at h2
    exact Option.noConfusion h2
  refine ⟨?_, ?_, ?_, ?_⟩
  · exact List.Nodup.sublist (mapKeys_mapDelete_sublist _ _) hnd1
  · rw [mapKeys_mapSet_of_mem hstmem]
    exact hnd2
  · intro p hp
    obtain ⟨hpIn, hpne⟩ := (mem_mapDelete_iff hnd1 id p).mp hp
    obtain ⟨hpid, hpcount⟩ := hcons1 p hpIn
    refine ⟨hpid, ?_⟩
    have hpneitem : p.2 ≠ item := by
      intro he
      apply hpne
      rw [hpid, he]
      exact hideq.symm
    rw [Feed.bucketOf, mapGet_mapSet]
    by_cases hdt : item.startTime = p.2.startTime
    · rw [if_pos hdt, Option.getD_some]
      have hys : occs (some p.2) (l₁ ++ none :: l₂) =
          occs (some p.2) (l₁ ++ some item :: l₂) := by
        rw [occs_append, occs_append]
        simp only [occs]
        have e1 : ¬ ((none : Option FeedItem) = some p.2) := by simp
        have e2 : ¬ (some item = some p.2) := by
          intro he
          exact hpneitem (Option.some.inj he).symm
        rw [if_neg e1, if_neg e2]
      rw [hys, ← hdec]
      rw [← hdt, hbsub] at hpcount
      exact hpcount
    · rw [if_neg hdt]
      exact hpcount
  · intro q hq it' hit'
    rcases (mem_mapSet_iff hnd2 _ _ q).mp hq with ⟨hq1, hq2⟩ | hq3
    · obtain ⟨hst', hgot⟩ := hcons2 q hq1 it' hit'
      refine ⟨hst', ?_⟩
      by_cases hide : id = it'.id
      · exfalso
        rw [← hide, h1] at hgot
        have heq : item = it' := Option.some.inj hgot
        apply hq2
        rw [heq]
        exact hst'.symm
      · rw [mapGet_mapDelete_ne _ hide]
        exact hgot
    · subst hq3
      have hit2 : some it' ∈ sub := by
        rw [hdec]
        rcases List.mem_append.mp hit' with hx | hx
        · exact List.mem_append.mpr (Or.inl hx)
        · rcases List.mem_cons.mp hx with hx | hx
          · exact absurd hx (by simp)
          · exact List.mem_append.mpr (Or.inr (List.mem_cons_of_mem _ hx))
      obtain ⟨hst', hgot⟩ := hcons2 (item.startTime, sub) (mapGet_mem h2) it' hit2
      refine ⟨hst', ?_⟩
      by_cases hide : id = it'.id
      · exfalso
        rw [← hide, h1] at hgot
        have heq : item = it' := Option.some.inj hgot
        rw [← heq] at hit'
        rcases List.mem_append.mp hit' with hx | hx
        · exact hnotl1 hx
        · rcases List.mem_cons.mp hx with hx | hx
          · exact Option.noConfusion hx
          · exact hnotl2 hx
      · rw [mapGet_mapDelete_ne _ hide]
        exact hgot

theorem reachable_inv {f : Feed} (h : Reachable f) : f.Inv := by
  induction h with
  | empty t l b d =>
      refine ⟨by simp [mapKeys], by simp [mapKeys], ?_, ?_⟩
      · intro p hp
        exact absurd hp (List.not_mem_nil p)
      · intro q hq
        exact absurd hq (List.not_mem_nil q)
  | add it _ hfresh ih => exact addChild_inv ih hfresh
  | remove id _ heq ih => exact removeChild_inv ih heq

/-! ## Sortedness of the generator outputs -/

theorem insertByTime_perm (d : DateObj) (l : List DateObj) :
    (insertByTime d l).Perm (d :: l) := by
  induction l with
  | nil => exact List.Perm.refl _
  | cons x xs ih =>
      rw [insertByTime]
      by_cases hle : d.time ≤ x.time
      · rw [if_pos hle]
      · rw [if_neg hle]
        exact (ih.cons x).trans (List.Perm.swap d x xs)

theorem sortByTime_perm (l : List DateObj) : (sortByTime l).Perm l := by
  induction l with
  | nil => exact List.Perm.refl _
  | cons x xs ih =>
      rw [sortByTime]
      exact (insertByTime_perm x (sortByTime xs)).trans (ih.cons x)

theorem insertByTime_pairwise {l : List DateObj} (d : DateObj)
    (h : l.Pairwise (fun a b => a.time ≤ b.time)) :
    (insertByTime d l).Pairwise (fun a b => a.time ≤ b.time) := by
  induction l with
  | nil => simp [insertByTime]
  | cons x xs ih =>
      rw [insertByTime]
      rcases List.pairwise_cons.mp h with ⟨hx, hxs⟩
      by_cases hle : d.time ≤ x.time
      · rw [if_pos hle]
        refine List.pairwise_cons.mpr ⟨?_, h⟩
        intro b hb
        rcases List.mem_cons.mp hb with rfl | hb
        · exact hle
        · exact le_trans hle (hx b hb)
      · rw [if_neg hle]
        refine List.pairwise_cons.mpr ⟨?_, ih hxs⟩
        intro b hb
        have hb' := (insertByTime_perm d xs).mem_iff.mp hb
        rcases List.mem_cons.mp hb' with rfl | hb'
        · omega
        · exact hx b hb'

theorem sortByTime_pairwise (l : List DateObj) :
    (sortByTime l).Pairwise (fun a b => a.time ≤ b.time) := by
  induction l with
  | nil => exact List.Pairwise.nil
  | cons x xs ih =>
      rw [sortByTime]
      exact insertByTime_pairwise x ih

theorem pairwise_flatMap {α β : Type} {R : β → β → Prop} {g : α → List β} {l : List α}
    (hin : ∀ a ∈ l, (g a).Pairwise R)
    (hbet : l.Pairwise (fun a b => ∀ x ∈ g a, ∀ y ∈ g b, R x y)) :
    (l.flatMap g).Pairwise R := by
  induction l with
  | nil => simp
  | cons a as ih =>
      rw [List.flatMap_cons, List.pairwise_append]
      rcases List.pairwise_cons.mp hbet with ⟨hfa, hbet'⟩
      refine ⟨hin a (List.mem_cons_self _ _),
        ih (fun b hb => hin b (List.mem_cons_of_mem _ hb)) hbet', ?_⟩
      intro x hx y hy
      rcases List.mem_flatMap.mp hy with ⟨b, hb, hyb⟩
      exact hfa b hb x hx y hyb

theorem pairwise_of_all_eq {β : Type} {R : β → β → Prop} {c : β} (hc : R c c)
    {l : List β} (h : ∀ x ∈ l, x = c) : l.Pairwise R := by
  induction l with
  | nil => exact List.Pairwise.nil
  | cons x xs ih =>
      refine List.pairwise_cons.mpr
        ⟨?_, ih fun y hy => h y (List.mem_cons_of_mem _ hy)⟩
      intro y hy
      rw [h x (List.mem_cons_self _ _), h y (List.mem_cons_of_mem _ hy)]
      exact hc

theorem filterMap_flatMap {α β γ : Type} (l : List α) (g : α → List β) (h : β → Option γ) :
    (l.flatMap g).filterMap h = l.flatMap fun a => (g a).filterMap h := by
  induction l with
  | nil => simp
  | cons a as ih => simp [List.flatMap_cons, List.filterMap_append, ih]

/-- The time value of each item found in the bucket stored under `dt`
is the time of `dt` itself (under the index invariant). -/
theorem bucket_time_eq {f : Feed} (hinv : f.Inv) {dt : DateObj} {x : Int}
    (hx : x ∈ (f.bucketOf dt).filterMap fun o => o.map fun it => it.startTime.time) :
    x = dt.time := by
  obtain ⟨_, _, _, hcons2⟩ := hinv
  rcases List.mem_filterMap.mp hx with ⟨o, ho, hox⟩
  rcases o with _ | it
  · simp at hox
  · simp only [Option.map_some'] at hox
    have hxeq : it.startTime.time = x := Option.some.inj hox
    rcases hg : mapGet f.itemsByStartTime dt with _ | sub
    · rw [Feed.bucketOf, hg] at ho
      simp at ho
    · rw [Feed.bucketOf, hg, Option.getD_some] at ho
      have hst := (hcons2 (dt, sub) (mapGet_mem hg) it ho).1
      rw [← hxeq]
      rw [show it.startTime = dt from hst]

/-- Under the index invariant, the start times of the items yielded by
`sortedItems` (holes skipped) are non-decreasing. -/
theorem sortedItems_times_pairwise {f : Feed} (hinv : f.Inv) :
    (f.sortedItems.filterMap fun o => o.map fun it => it.startTime.time).Pairwise
      (fun a b => a ≤ b) := by
  rw [Feed.sortedItems, filterMap_flatMap]
  apply pairwise_flatMap
  · intro dt _
    exact pairwise_of_all_eq (le_refl dt.time) fun x hx => bucket_time_eq hinv hx
  · refine List.Pairwise.imp_of_mem ?_
      (sortByTime_pairwise (mapKeys f.itemsByStartTime))
    intro a b ha hb hab x hx y hy
    rw [bucket_time_eq hinv hx, bucket_time_eq hinv hy]
    exact hab

theorem reachable_feedAB : Reachable feedAB :=
  Reachable.add itemB
    (Reachable.add itemA (Reachable.empty "t" "l" (some 100) "d") (by decide))
    (by decide)

theorem reachable_feedA : Reachable feedA :=
  Reachable.add itemA (Reachable.empty "t" "l" none "d") (by decide)

theorem reachable_feedDup : Reachable feedDup :=
  Reachable.add itemA2
    (Reachable.add itemA (Reachable.empty "t" "l" none "d") (by decide))
    (by decide)

/-! ## The claims -/

/-- C1: reconciling a Feed holding A (start 900) and B (start 1000)
against a channel carrying only the identity of B plus a new entry C
(start 1100), with a build time not newer than the local one, removes
both A and B, inserts C, returns `changed = true` and removed set
`{A, B}` — but the sorted item sequence is `[undefined, undefined, C]`,
not `[C]`: the emptied buckets are never pruned, because
`delete subArr[subIndex]` leaves `subArr.length` unchanged and the
`subArr.length == 0` branch is dead code. -/
theorem c1_rebuild_scenario :
    Feed.update feedAB chanC1 demoParse 5 =
      Except.ok (true, [itemA.id, itemB.id], feedC1After) ∧
    mapKeys feedC1After.itemsById = [itemC.id] ∧
    feedC1After.sortedItems = [none, none, some itemC] ∧
    feedC1After.sortedItems ≠ [some itemC] := by
  decide

/-- C2: when the extracted remote build timestamp is strictly greater
than the stored one, `update` returns `(false, {})` without touching
any part of the Feed. -/
theorem c2_freshness_gate (f : Feed) (ch : RawChannel)
    (dparse : String → Option Int) (fresh : Nat) (s : String) (tb tf : Int)
    (hs : ch.lastBuildDate = some s) (hb : dparse s = some tb)
    (hf : f.buildDate = some tf) (hlt : tf < tb) :
    f.update ch dparse fresh = Except.ok (false, [], f) := by
  have hgt : jsDateGt (dparse s) f.buildDate = true := by
    rw [hb, hf, jsDateGt]
    exact decide_eq_true hlt
  simp only [Feed.update, hs, hgt, if_true]

/-- Witness for C2 at the concrete feed `feedAB` (build 100) and the
channel `chanNewer` (build 150). -/
theorem c2_freshness_gate_witness :
    Feed.update feedAB chanNewer demoParse 5 = Except.ok (false, [], feedAB) :=
  c2_freshness_gate feedAB chanNewer demoParse 5 "bd-new" 150 100 rfl rfl rfl
    (by decide)

/-- C3: on every reachable Feed (inserts respect the dedup
precondition), every identity entry appears exactly once in the bucket
for its start time, and every item found in a bucket is indexed in
`itemsById` under its identity. -/
theorem c3_indices_lockstep (f : Feed) (h : Reachable f) :
    (∀ p ∈ f.itemsById, occs (some p.2) (f.bucketOf p.2.startTime) = 1) ∧
    (∀ q ∈ f.itemsByStartTime, ∀ it : FeedItem, some it ∈ q.2 →
        mapGet f.itemsById it.id = some it) := by
  obtain ⟨_, _, hcons1, hcons2⟩ := reachable_inv h
  exact ⟨fun p hp => (hcons1 p hp).2, fun q hq it hit => (hcons2 q hq it hit).2⟩

/-- Witness for C3: item B of the concrete reachable feed `feedAB`
occurs exactly once in its bucket. -/
theorem c3_indices_lockstep_witness :
    occs (some itemB) (feedAB.bucketOf itemB.startTime) = 1 :=
  (c3_indices_lockstep feedAB reachable_feedAB).1 ("B || 1000", itemB) (by decide)

/-- C4: removing the last item of a bucket does NOT prune the bucket:
`delete subArr[subIndex]` leaves the array length at 1, so the
`subArr.length == 0` check never fires and the start-time key survives,
holding a single hole. The claimed key-iff-nonempty invariant fails. -/
theorem c4_bucket_never_pruned :
    feedA.removeChild itemA.id = Except.ok feedARemoved ∧
    mapHas feedARemoved.itemsByStartTime ⟨0, 900⟩ = true ∧
    feedARemoved.bucketOf ⟨0, 900⟩ = [none] ∧
    mapGet feedARemoved.itemsById itemA.id = none := by
  decide

/-- C6: removing an identity absent from `itemsById` fails with the
not-found error before any mutation, leaving the Feed unchanged. -/
theorem c6_remove_absent (f : Feed) (id : String)
    (h : mapGet f.itemsById id = none) :
    f.removeChild id = Except.error (JsError.notFound, f) := by
  unfold Feed.removeChild
  rw [h]

/-- Witness for C6 at the concrete feed `feedAB` and an id it does not
contain. -/
theorem c6_remove_absent_witness :
    feedAB.removeChild "missing" = Except.error (JsError.notFound, feedAB) :=
  c6_remove_absent feedAB "missing" (by decide)

/-- C8: on every reachable Feed, the start times of the items yielded
by `sortedItems` are non-decreasing, and two traversals with no
intervening mutation yield element-wise identical sequences (the
generators are modelled as pure recomputation from current index state,
so restarting is literally re-evaluating the same function). -/
theorem c8_sorted_items_monotone (f : Feed) (h : Reachable f) :
    (f.sortedItems.filterMap fun o => o.map fun it => it.startTime.time).Pairwise
      (fun a b => a ≤ b) ∧
    ∀ l₁ l₂ : List (Option FeedItem),
      l₁ = f.sortedItems → l₂ = f.sortedItems → l₁ = l₂ := by
  refine ⟨sortedItems_times_pairwise (reachable_inv h), ?_⟩
  intro l₁ l₂ h1 h2
  rw [h1, h2]

/-- Witness for C8 at the concrete reachable feed `feedAB`. -/
theorem c8_sorted_items_monotone_witness :
    (feedAB.sortedItems.filterMap fun o => o.map fun it => it.startTime.time).Pairwise
      (fun a b => a ≤ b) :=
  (c8_sorted_items_monotone feedAB reachable_feedAB).1

/-- C9 as claimed is false; what holds: buckets are keyed by `Date`
OBJECT, so `sortedStartTimes` enumerates each distinct Date-object key
exactly once (it is duplicate-free as a key list and a permutation of
the keys, ascending by time), and an inserted item is appended to the
bucket of its own `startTime` object; equal instants carried by
distinct Date objects occupy distinct buckets and repeat the instant in
the output. -/
theorem c9_buckets_keyed_by_date_object (f : Feed) (h : Reachable f) :
    f.sortedStartTimes.Perm (mapKeys f.itemsByStartTime) ∧
    f.sortedStartTimes.Nodup ∧
    f.sortedStartTimes.Pairwise (fun a b => a.time ≤ b.time) ∧
    ∀ it : FeedItem, mapGet (f.addChild it).itemsByStartTime it.startTime =
      some (f.bucketOf it.startTime ++ [some it]) := by
  obtain ⟨_, hnd2, _, _⟩ := reachable_inv h
  refine ⟨sortByTime_perm _, ?_, sortByTime_pairwise _, ?_⟩
  · exact ((sortByTime_perm _).nodup_iff).mpr hnd2
  · intro it
    rw [mapGet_addChild_bst, if_pos rfl]

/-- Witness for C9 (amended) at the concrete reachable feed `feedDup`. -/
theorem c9_buckets_keyed_by_date_object_witness :
    feedDup.sortedStartTimes.Nodup :=
  (c9_buckets_keyed_by_date_object feedDup reachable_feedDup).2.1

/-- Counterexample for C9 as stated: `itemA` and `itemA2` carry the
same start instant (900) in distinct `Date` objects; inserting both
yields two distinct buckets, and `sortedStartTimes` yields the instant
900 twice rather than once. -/
theorem c9_counterexample :
    itemA.startTime.time = itemA2.startTime.time ∧
    feedDup.sortedStartTimes.map DateObj.time = [900, 900] ∧
    ¬ (feedDup.sortedStartTimes.map DateObj.time).Nodup ∧
    feedDup.bucketOf ⟨0, 900⟩ = [some itemA] ∧
    feedDup.bucketOf ⟨1, 900⟩ = [some itemA2] := by
  decide

/-! ## Error propagation out of the update pass -/

theorem parseChild_error_state {f : Feed} {fresh : Nat} {e : RawEntry}
    {dparse : String → Option Int} {ef : JsError × Feed}
    (h : f.parseChild fresh e dparse = Except.error ef) : ef.2 = f := by
  unfold Feed.parseChild at h
  split at h
  · have h2 := Except.error.inj h
    rw [← h2]
  next child hp =>
    split at h <;> exact Except.noConfusion h

theorem parseChild_preserves_old {f f' : Feed} {fresh : Nat} {e : RawEntry}
    {dparse : String → Option Int} {created : Bool} {it : FeedItem}
    (h : f.parseChild fresh e dparse = Except.ok (created, it, f'))
    (id : String) (hid : (mapGet f.itemsById id).isSome) :
    mapGet f'.itemsById id = mapGet f.itemsById id := by
  unfold Feed.parseChild at h
  split at h
  · exact Except.noConfusion h
  next child hp =>
    split at h
    next existing hex =>
        have h2 := Except.ok.inj h
        have hf : f = f' := congrArg (fun t => t.2.2) h2
        rw [← hf]
    next hnone =>
        have h2 := Except.ok.inj h
        have hf : f.addChild child = f' := congrArg (fun t => t.2.2) h2
        rw [← hf, addChild_itemsById, mapGet_mapSet]
        by_cases hide : child.id = id
        · exfalso
          rw [hide] at hnone
          rw [hnone] at hid
          simp at hid
        · rw [if_neg hide]

theorem updateLoop_preserves_old {dparse : String → Option Int} :
    ∀ (entries : List RawEntry) (f : Feed) (fresh : Nat) (changed : Bool)
      (res : JsError × Feed),
      updateLoop f entries fresh dparse changed = Except.error res →
      ∀ id, (mapGet f.itemsById id).isSome →
        mapGet res.2.itemsById id = mapGet f.itemsById id := by
  intro entries
  induction entries with
  | nil =>
      intro f fresh changed res h id hid
      rw [updateLoop] at h
      exact Except.noConfusion h
  | cons e rest ih =>
      intro f fresh changed res h id hid
      rw [updateLoop] at h
      split at h
      next ef hpc =>
        have hres := Except.error.inj h
        have hst := parseChild_error_state hpc
        rw [← hres, hst]
      next created it f₁ hpc =>
        have hkeep := parseChild_preserves_old hpc id hid
        have hid1 : (mapGet f₁.itemsById id).isSome := by
          rw [hkeep]
          exact hid
        rw [ih f₁ (fresh + 1) (changed || created) res h id hid1, hkeep]

/-- Counterexample for C5 as stated: reconciling `feedAB` against
`chanBadSecond` (good entry C first, then an entry with an unparsable
start date) throws the invalid-date error, yet the Feed has already
been mutated in place: C remains inserted. -/
theorem c5_counterexample :
    Feed.update feedAB chanBadSecond demoParse 5 =
      Except.error (JsError.invalidDate, feedBadAfter) ∧
    feedBadAfter ≠ feedAB ∧
    mapGet feedBadAfter.itemsById itemCfirst.id = some itemCfirst := by
  decide

/-- C5 (amended): when the per-entry loop of `update` throws, the error
propagates out of `update` unchanged and nothing has been removed —
every identity present before the call still maps to the same item —
though entries parsed earlier in the same pass remain inserted (there
is no rollback; removals only run after the whole loop succeeds). -/
theorem c5_error_no_removal (f : Feed) (ch : RawChannel)
    (dparse : String → Option Int) (fresh : Nat) (s : String)
    (err : JsError) (floop : Feed)
    (hs : ch.lastBuildDate = some s)
    (hgate : jsDateGt (dparse s) f.buildDate = false)
    (hloop : updateLoop f ch.items fresh dparse false = Except.error (err, floop)) :
    f.update ch dparse fresh = Except.error (err, floop) ∧
    ∀ id, (mapGet f.itemsById id).isSome →
      mapGet floop.itemsById id = mapGet f.itemsById id := by
  constructor
  · simp only [Feed.update, hs, hgate, Bool.false_eq_true, if_false, hloop]
  · exact updateLoop_preserves_old ch.items f fresh false (err, floop) hloop

/-- Witness for C5 (amended) at the concrete failing pass: item A of
`feedAB` survives the throwing update untouched. -/
theorem c5_error_no_removal_witness :
    Feed.update feedAB chanBadSecond demoParse 5 =
      Except.error (JsError.invalidDate, feedBadAfter) ∧
    mapGet feedBadAfter.itemsById "A || 900" = mapGet feedAB.itemsById "A || 900" := by
  have h := c5_error_no_removal feedAB chanBadSecond demoParse 5 "bd-old"
    JsError.invalidDate feedBadAfter rfl (by decide) (by decide)
  exact ⟨h.1, h.2 "A || 900" (by decide)⟩

/-! ## What parse validates, and what it throws for -/

theorem parse_all_fields (fresh : Nat) (t pd d ts ds : String)
    (dparse : String → Option Int) :
    FeedItem.parse fresh ⟨some t, some pd, some d, some ts, some ds⟩ dparse =
      match parseCalendarEventDate dparse
          ((if containsSep (jsTrim ds) then jsSplit " - " (jsTrim ds)
            else [jsTrim ds, jsTrim ds]).getD 0 "")
          ((jsSplit " - " ts).get? 0) with
      | none => Except.error JsError.invalidDate
      | some st =>
          Except.ok ⟨t, dparse pd, d, ⟨fresh, st⟩,
            parseCalendarEventDate dparse
              ((if containsSep (jsTrim ds) then jsSplit " - " (jsTrim ds)
                else [jsTrim ds, jsTrim ds]).getD 1 "")
              ((jsSplit " - " ts).get? 1)⟩ := rfl

theorem computedStart_all_fields (t pd d ts ds : String)
    (dparse : String → Option Int) :
    computedStart ⟨some t, some pd, some d, some ts, some ds⟩ dparse =
      some (parseCalendarEventDate dparse
        ((if containsSep (jsTrim ds) then jsSplit " - " (jsTrim ds)
          else [jsTrim ds, jsTrim ds]).getD 0 "")
        ((jsSplit " - " ts).get? 0)) := rfl

/-- Counterexample for C7 as stated: `entrySplit` has every field
present, a parsable start half and an unparsable end half of its date
range; `parse` nevertheless succeeds, returning an item whose `endTime`
is `Invalid Date` — the end timestamp is never validated. -/
theorem c7_counterexample :
    FeedItem.parse 0 entrySplit splitParse = Except.ok splitItem ∧
    splitItem.endTime = none := by
  decide

/-- C7 (amended): `parse` fails with the invalid-date error exactly
when the preceding fields are present and the computed START time does
not resolve to a valid instant — the end time is never validated; on
success the returned start time is the valid computed start instant;
and a failing parse is never inserted, since `parseChild` propagates
the error with the Feed untouched. -/
theorem c7_start_only_validation (fresh : Nat) (e : RawEntry)
    (dparse : String → Option Int) :
    (FeedItem.parse fresh e dparse = Except.error JsError.invalidDate ↔
      e.title.isSome ∧ e.pubDate.isSome ∧ e.description.isSome ∧
        computedStart e dparse = some none) ∧
    (∀ it : FeedItem, FeedItem.parse fresh e dparse = Except.ok it →
      computedStart e dparse = some (some it.startTime.time)) ∧
    (∀ (f : Feed) (err : JsError),
      FeedItem.parse fresh e dparse = Except.error err →
      f.parseChild fresh e dparse = Except.error (err, f)) := by
  have hpc : ∀ (f : Feed) (err : JsError),
      FeedItem.parse fresh e dparse = Except.error err →
      f.parseChild fresh e dparse = Except.error (err, f) := by
    intro f err h
    unfold Feed.parseChild
    rw [h]
  obtain ⟨t, pd, d, ts, ds⟩ := e
  refine ⟨?_, ?_, hpc⟩
  all_goals rcases t with _ | t
  case _ =>
    have hred : FeedItem.parse fresh ⟨none, pd, d, ts, ds⟩ dparse =
        Except.error JsError.typeError := rfl
    rw [hred]
    constructor
    · intro h
      exact absurd (Except.error.inj h) (by decide)
    · rintro ⟨h1, -, -, -⟩
      simp at h1
  case _ =>
    rcases pd with _ | pd
    case _ =>
      have hred : FeedItem.parse fresh ⟨some t, none, d, ts, ds⟩ dparse =
          Except.error JsError.typeError := rfl
      rw [hred]
      constructor
      · intro h
        exact absurd (Except.error.inj h) (by decide)
      · rintro ⟨-, h2, -, -⟩
        simp at h2
    case _ =>
      rcases d with _ | d
      case _ =>
        have hred : FeedItem.parse fresh ⟨some t, some pd, none, ts, ds⟩ dparse =
            Except.error JsError.typeError := rfl
        rw [hred]
        constructor
        · intro h
          exact absurd (Except.error.inj h) (by decide)
        · rintro ⟨-, -, h3, -⟩
          simp at h3
      case _ =>
        rcases ts with _ | ts
        case _ =>
          have hred : FeedItem.parse fresh ⟨some t, some pd, some d, none, ds⟩ dparse =
              Except.error JsError.typeError := rfl
          have hcs : computedStart ⟨some t, some pd, some d, none, ds⟩ dparse =
              none := rfl
          rw [hred, hcs]
          constructor
          · intro h
            exact absurd (Except.error.inj h) (by decide)
          · rintro ⟨-, -, -, h4⟩
            exact Option.noConfusion h4
        case _ =>
          rcases ds with _ | ds
          case _ =>
            have hred : FeedItem.parse fresh
                ⟨some t, some pd, some d, some ts, none⟩ dparse =
                Except.error JsError.typeError := rfl
            have hcs : computedStart ⟨some t, some pd, some d, some ts, none⟩ dparse =
                none := rfl
            rw [hred, hcs]
            constructor
            · intro h
              exact absurd (Except.error.inj h) (by decide)
            · rintro ⟨-, -, -, h4⟩
              exact Option.noConfusion h4
          case _ =>
            rw [parse_all_fields, computedStart_all_fields]
            rcases hcs : parseCalendarEventDate dparse
                ((if containsSep (jsTrim ds) then jsSplit " - " (jsTrim ds)
                  else [jsTrim ds, jsTrim ds]).getD 0 "")
                ((jsSplit " - " ts).get? 0) with _ | st
            · simp
            · simp
  case _ =>
    intro it h
    have hred : FeedItem.parse fresh ⟨none, pd, d, ts, ds⟩ dparse =
        Except.error JsError.typeError := rfl
    rw [hred] at h
    exact Except.noConfusion h
  case _ =>
    rcases pd with _ | pd
    case _ =>
      intro it h
      have hred : FeedItem.parse fresh ⟨some t, none, d, ts, ds⟩ dparse =
          Except.error JsError.typeError := rfl
      rw [hred] at h
      exact Except.noConfusion h
    case _ =>
      rcases d with _ | d
      case _ =>
        intro it h
        have hred : FeedItem.parse fresh ⟨some t, some pd, none, ts, ds⟩ dparse =
            Except.error JsError.typeError := rfl
        rw [hred] at h
        exact Except.noConfusion h
      case _ =>
        rcases ts with _ | ts
        case _ =>
          intro it h
          have hred : FeedItem.parse fresh ⟨some t, some pd, some d, none, ds⟩ dparse =
              Except.error JsError.typeError := rfl
          rw [hred] at h
          exact Except.noConfusion h
        case _ =>
          rcases ds with _ | ds
          case _ =>
            intro it h
            have hred : FeedItem.parse fresh
                ⟨some t, some pd, some d, some ts, none⟩ dparse =
                Except.error JsError.typeError := rfl
            rw [hred] at h
            exact Except.noConfusion h
          case _ =>
            intro it h
            rw [parse_all_fields] at h
            rw [computedStart_all_fields]
            rcases hcs : parseCalendarEventDate dparse
                ((if containsSep (jsTrim ds) then jsSplit " - " (jsTrim ds)
                  else [jsTrim ds, jsTrim ds]).getD 0 "")
                ((jsSplit " - " ts).get? 0) with _ | st
            · rw [hcs] at h
              exact Except.noConfusion h
            · rw [hcs] at h
              have h2 := Except.ok.inj h
              rw [← h2]

/-- Witness for C7 (amended): the successful parse of `entrySplit`
returns exactly the computed valid start instant. -/
theorem c7_start_only_validation_witness :
    computedStart entrySplit splitParse = some (some splitItem.startTime.time) :=
  (c7_start_only_validation 0 entrySplit splitParse).2.1 splitItem (by decide)

/-- C10: an entry missing any of the five selector targets makes
`parse` throw the TypeError of reading a property of `null`, never the
invalid-date error; the invalid-date branch is reachable only when
every field is present. -/
theorem c10_missing_field_type_error (fresh : Nat) (e : RawEntry)
    (dparse : String → Option Int) :
    ((e.title = none ∨ e.pubDate = none ∨ e.description = none ∨
        e.eventTimes = none ∨ e.eventDates = none) →
      FeedItem.parse fresh e dparse = Except.error JsError.typeError) ∧
    (FeedItem.parse fresh e dparse = Except.error JsError.invalidDate →
      e.title.isSome ∧ e.pubDate.isSome ∧ e.description.isSome ∧
        e.eventTimes.isSome ∧ e.eventDates.isSome) := by
  obtain ⟨t, pd, d, ts, ds⟩ := e
  rcases t with _ | t
  · refine ⟨fun _ => rfl, fun h => ?_⟩
    have h2 : Except.error (α := FeedItem) JsError.typeError =
        Except.error JsError.invalidDate := h
    exact absurd (Except.error.inj h2) (by decide)
  rcases pd with _ | pd
  · refine ⟨fun _ => rfl, fun h => ?_⟩
    have h2 : Except.error (α := FeedItem) JsError.typeError =
        Except.error JsError.invalidDate := h
    exact absurd (Except.error.inj h2) (by decide)
  rcases d with _ | d
  · refine ⟨fun _ => rfl, fun h => ?_⟩
    have h2 : Except.error (α := FeedItem) JsError.typeError =
        Except.error JsError.invalidDate := h
    exact absurd (Except.error.inj h2) (by decide)
  rcases ts with _ | ts
  · refine ⟨fun _ => rfl, fun h => ?_⟩
    have h2 : Except.error (α := FeedItem) JsError.typeError =
        Except.error JsError.invalidDate := h
    exact absurd (Except.error.inj h2) (by decide)
  rcases ds with _ | ds
  · refine ⟨fun _ => rfl, fun h => ?_⟩
    have h2 : Except.error (α := FeedItem) JsError.typeError =
        Except.error JsError.invalidDate := h
    exact absurd (Except.error.inj h2) (by decide)
  constructor
  · rintro (h | h | h | h | h) <;> exact Option.noConfusion h
  · intro _
    exact ⟨rfl, rfl, rfl, rfl, rfl⟩

/-- Witness for C10: the entry whose `calendarEvent:EventTimes`
selector matches nothing parses to the TypeError. -/
theorem c10_missing_field_type_error_witness :
    FeedItem.parse 0 entryNoTimes demoParse = Except.error JsError.typeError :=
  (c10_missing_field_type_error 0 entryNoTimes demoParse).1
    (Or.inr (Or.inr (Or.inr (Or.inl rfl))))
